import Mathlib

/-!
Verification of the georag semantic-retrieval core against its code.

The development shallowly embeds the Python sources:
  * `app.py`    — download counter (`load_stats`, `save_stats`, `increment_download`)
                  and the `/search` route (`search`).
  * `build_index.py` — the offline index build (`main`).

Machine floats are modelled by exact rationals; Python dicts by ordered
association lists (insertion order, in-place update of an existing key);
the FAISS flat-L2 index by an explicit list of vectors with exhaustive
squared-L2 k-NN search (stable sort, `-1` padding when `k` exceeds the
corpus); the JSON files by explicit file states (absent / corrupt /
parsed).
-/

namespace GeoRag

/-! ### Ordered association lists: the embedding of Python dicts -/

/-- A JSON scalar value as it appears in mapping records and search
results (numbers and strings are the only shapes the verified claims
touch). -/
inductive JVal where
  | num (q : ℚ)
  | str (s : String)
deriving DecidableEq, Repr

/-- A Python dict: an insertion-ordered association list. -/
abbrev Dict := List (String × JVal)

/-- `d.get(k, dflt)`: value of the entry with key `k`, else the
default. -/
def assocGetD {α : Type} : List (String × α) → String → α → α
  | [], _, dflt => dflt
  | p :: t, k, dflt => if p.1 = k then p.2 else assocGetD t k dflt

/-- `k in d`. -/
def assocHas {α : Type} : List (String × α) → String → Bool
  | [], _ => false
  | p :: t, k => p.1 = k || assocHas t k

/-- `d[k] = v`: update in place when the key exists (keeping its
position, as Python dicts do), otherwise append at the end. -/
def assocSet {α : Type} : List (String × α) → String → α → List (String × α)
  | [], k, v => [(k, v)]
  | p :: t, k, v => if p.1 = k then (k, v) :: t else p :: assocSet t k v

/-! ### Download counter (`app.py`, lines 20–39)

The counter store `data/download_stats.json` maps filenames to integer
counts.  Its on-disk state is absent (first run), present but
unparseable, or present and parseable to a store. -/

abbrev Store := List (String × ℤ)

/-- The error raised when the persisted counter data cannot be parsed
(the spec's `CounterStoreError`; concretely, the exception `json.load`
raises on corrupt input, which `load_stats` does not catch). -/
inductive CounterStoreError where
  | corrupt
deriving DecidableEq, Repr

/-- Contents of the stats file when it exists. -/
inductive FileContent where
  | corrupt
  | parsed (s : Store)
deriving DecidableEq

/-- On-disk state of `data/download_stats.json`: `none` = the file does
not exist. -/
abbrev FileState := Option FileContent

/-- `load_stats` (`app.py` 24–28): if the file exists, parse it (a parse
failure propagates as an error); otherwise return the empty store. -/
def load_stats (fs : FileState) : Except CounterStoreError Store :=
  match fs with
  | none => .ok []
  | some .corrupt => .error .corrupt
  | some (.parsed s) => .ok s

/-- `save_stats` (`app.py` 30–32): rewrite the whole file with the given
store. -/
def save_stats (stats : Store) : FileState :=
  some (.parsed stats)

/-- `increment_download` (`app.py` 34–39), the body executed under
`_stats_lock`: load the store, set `stats[filename] = stats.get(filename, 0) + 1`,
persist, and return `stats[filename]`.  Returns the new count together
with the new file state; a load failure propagates and leaves the file
untouched. -/
def increment_download (fs : FileState) (filename : String) :
    Except CounterStoreError (ℤ × FileState) :=
  match load_stats fs with
  | .error e => .error e
  | .ok stats =>
      let stats' := assocSet stats filename (assocGetD stats filename 0 + 1)
      .ok (assocGetD stats' filename 0, save_stats stats')

/-- One serialized increment as a state transformer: the effect of one
`increment_download` call on the persisted file (the lock makes the whole
read-modify-write-persist sequence one atomic step; on an error the file
is left unchanged). -/
def applyIncr (filename : String) (fs : FileState) : FileState :=
  match increment_download fs filename with
  | .ok r => r.2
  | .error _ => fs

/-! ### Similarity scoring and the search route (`app.py`, lines 73–96) -/

/-- A vector of (exact-valued) float32 components. -/
abbrev Vec := List ℚ

/-- Squared L2 distance, the metric of `faiss.IndexFlatL2`. -/
def sqDist (u v : Vec) : ℚ :=
  (List.zipWith (fun a b => (a - b) * (a - b)) u v).sum

/-- Round half to even to the nearest integer (the rounding mode of
Python's built-in `round`). -/
def roundHalfEven (q : ℚ) : ℤ :=
  if Int.fract q < 1/2 then ⌊q⌋
  else if 1/2 < Int.fract q then ⌊q⌋ + 1
  else if ⌊q⌋ % 2 = 0 then ⌊q⌋ else ⌊q⌋ + 1

/-- Python's `round(x, 1)`. -/
def round1 (q : ℚ) : ℚ :=
  (roundHalfEven (10 * q) : ℚ) / 10

/-- The similarity percentage the route attaches to each hit
(`app.py` 91–93): `round(max(0, (1 - score / 2.0)) * 100, 1)` where
`score` is the raw distance FAISS returned for the row. -/
def simPercent (score : ℚ) : ℚ :=
  round1 (max 0 (1 - score / 2) * 100)

/-- Comparison used to rank scored rows: ascending distance, ties broken
by ascending row index (FAISS flat search is exhaustive and stable). -/
def distLe (a b : ℤ × ℚ) : Bool :=
  decide (a.2 < b.2 ∨ (a.2 = b.2 ∧ a.1 ≤ b.1))

/-- `index.search(q, k)` of a `faiss.IndexFlatL2` holding `vecs`:
score every row, sort by ascending distance (ties by row index), keep
the first `k`, and pad with sentinel `(-1, 0)` rows when the index holds
fewer than `k` vectors.  Returned pairs are `(row_index, distance)`. -/
def knnSearch (vecs : List Vec) (q : Vec) (k : ℕ) : List (ℤ × ℚ) :=
  let scored := (List.range vecs.length).map
    (fun i => (Int.ofNat i, sqDist q (vecs.getD i [])))
  let top := (scored.mergeSort distLe).take k
  top ++ List.replicate (k - top.length) (-1, 0)

/-- The per-hit record assembly (`app.py` 88–93): copy the mapping entry
at the row index, set `item["score"]` to the raw distance and
`item["similarity"]` to the percentage. -/
def attachScores (mapping : List Dict) (p : ℤ × ℚ) : Dict :=
  assocSet (assocSet (mapping.getD p.1.toNat []) "score" (.num p.2))
    "similarity" (.num (simPercent p.2))

/-- The row filter of the loop (`app.py` 87): `idx < len(mapping) and idx != -1`. -/
def rowOk (mapping : List Dict) (p : ℤ × ℚ) : Prop :=
  p.1 < (mapping.length : ℤ) ∧ p.1 ≠ -1

instance (mapping : List Dict) : DecidablePred (rowOk mapping) :=
  fun _ => by unfold rowOk; infer_instance

/-- The `/search` route (`app.py` 75–96) with the neighbour count `k` as
a parameter: short-circuit the empty query (`if not query:` is true
exactly for `""`), embed the query, run the k-NN search, and accumulate
one scored record per surviving row, in index order. -/
def searchK (embed : String → Vec) (vecs : List Vec) (mapping : List Dict)
    (query : String) (k : ℕ) : List Dict :=
  if query = "" then []
  else
    (knnSearch vecs (embed query) k).foldl
      (fun results p =>
        if rowOk mapping p then results ++ [attachScores mapping p]
        else results) []

/-- The `/search` route as shipped: `index.search(query_vec, k=5)`. -/
def search (embed : String → Vec) (vecs : List Vec) (mapping : List Dict)
    (query : String) : List Dict :=
  searchK embed vecs mapping query 5

/-! ### Index build (`build_index.py`) -/

/-- The failure `main` hits on an empty corpus: `model.encode([])` is a
1-D empty array, so `embeddings.shape[1]` raises `IndexError`. -/
inductive BuildFailure where
  | emptyEmbeddingShape
deriving DecidableEq, Repr

/-- A `faiss.IndexFlatL2`: its dimension and its rows. -/
structure FlatIndex where
  dim : ℕ
  vecs : List Vec
deriving DecidableEq

/-- `embeddings.shape[1]` for a list-of-rows array: defined only when
there is at least one row (a 0-row `np.asarray` result is 1-D and has no
second axis). -/
def shapeAxis1 : List Vec → Except BuildFailure ℕ
  | [] => .error .emptyEmbeddingShape
  | v :: _ => .ok v.length

/-- `main` of `build_index.py` up to persistence: extract the
descriptions in order, embed the whole batch, read the embedding
dimension off the array shape, and build the flat index over all rows;
the mapping persisted alongside is the input record list itself. -/
def buildMain (embed : String → Vec) (data : List Dict) :
    Except BuildFailure (FlatIndex × List Dict) :=
  let descriptions := data.map (fun item => assocGetD item "description" (.str ""))
  let embeddings := descriptions.map
    (fun d => embed (match d with | .str s => s | .num _ => ""))
  match shapeAxis1 embeddings with
  | .error e => .error e
  | .ok dimension => .ok ({ dim := dimension, vecs := embeddings }, data)

/-- The two persisted artifacts of the build. -/
structure ArtifactState where
  indexFile : Option FlatIndex
  mappingFile : Option (List Dict)
deriving DecidableEq

/-- The persistence tail of `main` (`build_index.py` 28–34):
`faiss.write_index` to the index path, then `json.dump` of the mapping —
two direct overwrites, no temporary files, no exception handling.  An
injected I/O failure at either write raises there, leaving every write
already performed in place; the Boolean reports whether the whole
sequence completed. -/
def persistArtifacts (st : ArtifactState) (idx : FlatIndex) (data : List Dict)
    (failIndexWrite failMappingWrite : Bool) : ArtifactState × Bool :=
  if failIndexWrite then (st, false)
  else
    let st1 : ArtifactState := { st with indexFile := some idx }
    if failMappingWrite then (st1, false)
    else ({ st1 with mappingFile := some data }, true)

/-! ### Object-granularity model of the route (`app.py` 86–94)

Python's `mapping[idx].copy()` allocates a fresh dict object and the
subsequent key assignments mutate only that fresh object.  To verify
this frame property we model the dict objects explicitly: a heap of
dict cells addressed by position, the loaded mapping being a list of
addresses into the startup heap.  Each hit appends one fresh cell — the
copy, with the two keys set — and never writes an existing address. -/

abbrev Heap := List Dict

/-- One iteration of the route's loop at object granularity: for a
surviving row, read the mapping cell, allocate its updated copy (the
`.copy()` plus the two key assignments) at the end of the heap, and
record the fresh address as the result row. -/
def searchHeapStep (mapAddrs : List ℕ) (acc : Heap × List ℕ) (p : ℤ × ℚ) :
    Heap × List ℕ :=
  if p.1 < (mapAddrs.length : ℤ) ∧ p.1 ≠ -1 then
    (acc.1 ++ [assocSet (assocSet (acc.1.getD (mapAddrs.getD p.1.toNat 0) [])
        "score" (.num p.2)) "similarity" (.num (simPercent p.2))],
      acc.2 ++ [acc.1.length])
  else acc

/-- One `/search` execution at object granularity.  Returns the heap
after the request and the addresses of the result records. -/
def searchHeap (embed : String → Vec) (vecs : List Vec) (heap : Heap)
    (mapAddrs : List ℕ) (query : String) (k : ℕ) : Heap × List ℕ :=
  if query = "" then (heap, [])
  else (knnSearch vecs (embed query) k).foldl (searchHeapStep mapAddrs) (heap, [])

/-- A sequence of `/search` requests (each with the route's `k = 5`)
against the same loaded mapping, threading the object heap. -/
def runSearches (embed : String → Vec) (vecs : List Vec) (mapAddrs : List ℕ)
    (heap : Heap) (queries : List String) : Heap :=
  queries.foldl (fun h q => (searchHeap embed vecs h mapAddrs q 5).1) heap

/-! ### Association-list lemmas -/

theorem assocGetD_assocSet_self {α : Type} (s : List (String × α)) (k : String)
    (v dflt : α) : assocGetD (assocSet s k v) k dflt = v := by
  induction s with
  | nil => simp [assocSet, assocGetD]
  | cons p t ih =>
    by_cases h : p.1 = k
    · simp [assocSet, assocGetD, h]
    · simp [assocSet, assocGetD, h, ih]

theorem assocGetD_assocSet_other {α : Type} (s : List (String × α)) (k k' : String)
    (v dflt : α) (hne : k' ≠ k) :
    assocGetD (assocSet s k v) k' dflt = assocGetD s k' dflt := by
  have hne' : ¬(k = k') := fun h => hne h.symm
  induction s with
  | nil => simp [assocSet, assocGetD, hne']
  | cons p t ih =>
    by_cases h : p.1 = k
    · have hp' : ¬(p.1 = k') := fun hh => hne' (h ▸ hh)
      simp [assocSet, assocGetD, h, hne', hp']
    · by_cases h' : p.1 = k'
      · simp [assocSet, assocGetD, h, h', hne]
      · simp [assocSet, assocGetD, h, h', ih]

theorem assocHas_assocSet {α : Type} (s : List (String × α)) (k k' : String)
    (v : α) (h : assocHas s k' = true) : assocHas (assocSet s k v) k' = true := by
  induction s with
  | nil => simp [assocHas] at h
  | cons p t ih =>
    have h0 : p.1 = k' ∨ assocHas t k' = true := by simpa [assocHas] using h
    rcases h0 with h1 | h1
    · by_cases hp : p.1 = k
      · have hkk : k = k' := hp.symm.trans h1
        simp [assocSet, hp, assocHas, hkk]
      · have hk : ¬(k' = k) := fun hh => hp (h1.trans hh)
        simp [assocSet, hp, assocHas, h1, hk]
    · by_cases hp : p.1 = k
      · simp [assocSet, hp, assocHas, h1]
      · simp [assocSet, hp, assocHas, ih h1]

theorem assocGetD_nonneg (s : Store) (k : String)
    (h : ∀ p ∈ s, 0 ≤ p.2) : 0 ≤ assocGetD s k 0 := by
  induction s with
  | nil => simp [assocGetD]
  | cons p t ih =>
    by_cases hp : p.1 = k
    · simpa [assocGetD, hp] using h p (by simp)
    · simpa [assocGetD, hp] using ih (fun q hq => h q (by simp [hq]))

theorem assocSet_nonneg (s : Store) (k : String) (v : ℤ) (hv : 0 ≤ v)
    (h : ∀ p ∈ s, 0 ≤ p.2) : ∀ p ∈ assocSet s k v, 0 ≤ p.2 := by
  induction s with
  | nil => simpa [assocSet] using hv
  | cons p t ih =>
    by_cases hp : p.1 = k
    · intro q hq
      rcases (by simpa [assocSet, hp] using hq) with h' | h'
      · simpa [h'] using hv
      · exact h q (by simp [h'])
    · intro q hq
      rcases (by simpa [assocSet, hp] using hq) with h' | h'
      · exact h q (by simp [h'])
      · exact ih (fun r hr => h r (by simp [hr])) q h'

/-! ### Rounding lemmas -/

theorem roundHalfEven_ge_floor (q : ℚ) : ⌊q⌋ ≤ roundHalfEven q := by
  unfold roundHalfEven
  repeat' split
  all_goals omega

theorem roundHalfEven_le_floor_add_one (q : ℚ) : roundHalfEven q ≤ ⌊q⌋ + 1 := by
  unfold roundHalfEven
  repeat' split
  all_goals omega

theorem roundHalfEven_nonneg {q : ℚ} (h : 0 ≤ q) : 0 ≤ roundHalfEven q :=
  le_trans (Int.floor_nonneg.mpr h) (roundHalfEven_ge_floor q)

theorem roundHalfEven_le {q : ℚ} {n : ℤ} (h : q ≤ (n : ℚ)) : roundHalfEven q ≤ n := by
  have hfl : ⌊q⌋ ≤ n := by
    have := Int.floor_le_floor h
    simpa using this
  by_cases h1 : Int.fract q < 1/2
  · have : roundHalfEven q = ⌊q⌋ := by unfold roundHalfEven; rw [if_pos h1]
    omega
  · have h2 : ⌊q⌋ < n := by
      rcases lt_or_eq_of_le hfl with h' | h'
      · exact h'
      · exfalso
        have hq : q = (n : ℚ) := le_antisymm h (by
          calc (n : ℚ) = (⌊q⌋ : ℚ) := by exact_mod_cast h'.symm
          _ ≤ q := Int.floor_le q)
        rw [hq] at h1
        exact h1 (by rw [Int.fract_intCast]; norm_num)
    have := roundHalfEven_le_floor_add_one q
    omega

theorem roundHalfEven_intCast (n : ℤ) : roundHalfEven ((n : ℤ) : ℚ) = n := by
  unfold roundHalfEven
  rw [if_pos (by rw [Int.fract_intCast]; norm_num)]
  simp

theorem round1_nonneg {q : ℚ} (h : 0 ≤ q) : 0 ≤ round1 q := by
  unfold round1
  have : (0 : ℚ) ≤ (roundHalfEven (10 * q) : ℚ) := by
    exact_mod_cast roundHalfEven_nonneg (by positivity)
  positivity

theorem round1_le_100 {q : ℚ} (h : q ≤ 100) : round1 q ≤ 100 := by
  unfold round1
  have h1 : roundHalfEven (10 * q) ≤ (1000 : ℤ) := by
    apply roundHalfEven_le
    push_cast
    linarith
  have h2 : (roundHalfEven (10 * q) : ℚ) ≤ 1000 := by exact_mod_cast h1
  linarith

/-! ### Fold/filter lemmas -/

theorem foldl_filter_append {α β : Type} (P : α → Prop) [DecidablePred P] (f : α → β)
    (l : List α) (init : List β) :
    l.foldl (fun acc p => if P p then acc ++ [f p] else acc) init
      = init ++ (l.filter (fun p => decide (P p))).map f := by
  induction l generalizing init with
  | nil => simp
  | cons a t ih =>
    by_cases h : P a
    · simp [List.foldl_cons, ih, h]
    · simp [List.foldl_cons, ih, h]

theorem filter_replicate_false {α : Type} (p : α → Bool) (a : α) (h : p a = false)
    (n : ℕ) : (List.replicate n a).filter p = [] := by
  induction n with
  | zero => simp
  | succ m ih => simp [List.replicate_succ, h, ih]

theorem simPercent_zero : simPercent 0 = 100 := by
  unfold simPercent round1
  rw [show (10 : ℚ) * (max 0 (1 - 0 / 2) * 100) = ((1000 : ℤ) : ℚ) by
    rw [max_eq_right (by norm_num : (0:ℚ) ≤ 1 - 0 / 2)]; norm_num]
  rw [roundHalfEven_intCast]
  norm_num

theorem simPercent_two : simPercent 2 = 0 := by
  unfold simPercent round1
  rw [show (10 : ℚ) * (max 0 (1 - 2 / 2) * 100) = ((0 : ℤ) : ℚ) by norm_num]
  rw [roundHalfEven_intCast]
  norm_num

/-! ### Claim theorems -/

/-- **C1.** For every distance `d ≥ 0` returned by the index search, the
route computes `similarity_percent = round(max(0, 1 - d/2) * 100, 1)`
on the raw FAISS value `d`; the result lies in `[0, 100]`, `d = 0`
yields exactly `100.0`, and `d = 2` yields exactly `0.0`. -/
theorem similarity_percent_spec (d : ℚ) (h : 0 ≤ d) :
    simPercent d = round1 (max 0 (1 - d / 2) * 100)
    ∧ (0 ≤ simPercent d ∧ simPercent d ≤ 100)
    ∧ simPercent 0 = 100 ∧ simPercent 2 = 0 := by
  refine ⟨rfl, ⟨?_, ?_⟩, simPercent_zero, simPercent_two⟩
  · exact round1_nonneg (mul_nonneg (le_max_left 0 _) (by norm_num))
  · apply round1_le_100
    have h1 : max 0 (1 - d / 2) ≤ 1 := max_le (by norm_num) (by linarith)
    calc max 0 (1 - d / 2) * 100 ≤ 1 * 100 :=
          mul_le_mul_of_nonneg_right h1 (by norm_num)
    _ = 100 := by norm_num

theorem similarity_percent_spec_witness :
    0 ≤ simPercent 1 ∧ simPercent 1 ≤ 100 :=
  (similarity_percent_spec 1 (by norm_num)).2.1

/-- **C3.** `increment_download` on a parsed store returns the previous
count plus one (absent key counted as 0) and persists the fully updated
store; concretely, from the empty store the first call on `"a.h5"`
returns 1, the second returns 2, and loading the store then yields
`{"a.h5": 2}`. -/
theorem increment_download_spec :
    (∀ (s : Store) (fid : String),
        increment_download (some (.parsed s)) fid
          = .ok (assocGetD s fid 0 + 1,
              some (.parsed (assocSet s fid (assocGetD s fid 0 + 1)))))
    ∧ increment_download (some (.parsed [])) "a.h5"
        = .ok (1, some (.parsed [("a.h5", 1)]))
    ∧ increment_download (some (.parsed [("a.h5", 1)])) "a.h5"
        = .ok (2, some (.parsed [("a.h5", 2)]))
    ∧ load_stats (some (.parsed [("a.h5", 2)])) = .ok [("a.h5", 2)] := by
  refine ⟨?_, rfl, rfl, rfl⟩
  intro s fid
  simp [increment_download, load_stats, save_stats, assocGetD_assocSet_self]

/-- **C4.** The lock serializes concurrent `increment_download` calls,
so an `n`-thread run on one `file_id` is some sequence of `n` atomic
increment steps; starting from the freshly initialized empty store the
final persisted count is exactly `n`, and every intermediate persisted
state parses as a complete store. -/
theorem concurrent_increments_spec (fid : String) (n : ℕ) :
    (∃ s : Store, (applyIncr fid)^[n] (some (.parsed [])) = some (.parsed s)
        ∧ assocGetD s fid 0 = (n : ℤ))
    ∧ (∀ i, i ≤ n → ∃ s : Store,
        (applyIncr fid)^[i] (some (.parsed [])) = some (.parsed s)) := by
  have hiter : ∀ m : ℕ, (applyIncr fid)^[m] (some (.parsed []))
      = some (.parsed (if m = 0 then [] else [(fid, (m : ℤ))])) := by
    intro m
    induction m with
    | zero => simp
    | succ j ih =>
      rw [Function.iterate_succ_apply', ih]
      by_cases hj : j = 0
      · subst hj
        simp [applyIncr, increment_download, load_stats, assocGetD, assocSet,
          save_stats]
      · simp only [hj, if_neg, ite_false]
        simp [applyIncr, increment_download, load_stats, assocGetD, assocSet,
          save_stats]
  constructor
  · refine ⟨if n = 0 then [] else [(fid, (n : ℤ))], hiter n, ?_⟩
    by_cases hn : n = 0 <;> simp [hn, assocGetD]
  · intro i _
    exact ⟨_, hiter i⟩

theorem concurrent_increments_spec_witness :
    ∃ s : Store, (applyIncr "f.sgy")^[2] (some (.parsed [])) = some (.parsed s) :=
  (concurrent_increments_spec "f.sgy" 3).2 2 (by norm_num)

/-- **C8.** `load_stats` fails exactly when the stats file exists and is
unparseable; an absent file yields the empty store, and a corrupt file
is never silently read back as a (reset) store. -/
theorem load_stats_spec (fs : FileState) :
    ((∃ e, load_stats fs = .error e) ↔ fs = some .corrupt)
    ∧ load_stats none = .ok []
    ∧ (∀ s, load_stats (some .corrupt) ≠ .ok s) := by
  refine ⟨?_, rfl, ?_⟩
  · cases fs with
    | none => simp [load_stats]
    | some c =>
      cases c with
      | corrupt =>
        constructor
        · intro _; rfl
        · intro _; exact ⟨.corrupt, rfl⟩
      | parsed s => simp [load_stats]
  · intro s h
    simp [load_stats] at h

theorem load_stats_spec_witness :
    ∃ e, load_stats (some .corrupt) = .error e :=
  (load_stats_spec (some .corrupt)).1.mpr rfl

/-- **C10.** `increment_download` touches only the incremented key: it
persists the store with the given `file_id` updated, leaves every other
key's count unchanged, removes no key, and preserves non-negativity of
all counts. -/
theorem increment_download_frame (s : Store) (fid : String) :
    increment_download (some (.parsed s)) fid
      = .ok (assocGetD s fid 0 + 1,
          some (.parsed (assocSet s fid (assocGetD s fid 0 + 1))))
    ∧ (∀ k, k ≠ fid →
        assocGetD (assocSet s fid (assocGetD s fid 0 + 1)) k 0 = assocGetD s k 0)
    ∧ (∀ k, assocHas s k = true →
        assocHas (assocSet s fid (assocGetD s fid 0 + 1)) k = true)
    ∧ ((∀ p ∈ s, 0 ≤ p.2) →
        ∀ p ∈ assocSet s fid (assocGetD s fid 0 + 1), 0 ≤ p.2) := by
  refine ⟨?_, ?_, ?_, ?_⟩
  · simp [increment_download, load_stats, save_stats, assocGetD_assocSet_self]
  · intro k hk
    exact assocGetD_assocSet_other s fid k _ 0 hk
  · intro k hk
    exact assocHas_assocSet s fid k _ hk
  · intro hnn
    exact assocSet_nonneg s fid _
      (by have := assocGetD_nonneg s fid hnn; omega) hnn

theorem increment_download_frame_witness :
    assocGetD (assocSet [("b.sgy", 3)] "a.h5"
        (assocGetD [("b.sgy", 3)] "a.h5" 0 + 1)) "b.sgy" 0
      = assocGetD [("b.sgy", (3 : ℤ))] "b.sgy" 0 :=
  (increment_download_frame [("b.sgy", 3)] "a.h5").2.1 "b.sgy" (by decide)

/-! ### Ranking-order lemmas for the k-NN model -/

theorem distLe_trans (a b c : ℤ × ℚ) (hab : distLe a b = true)
    (hbc : distLe b c = true) : distLe a c = true := by
  simp only [distLe, decide_eq_true_eq] at hab hbc ⊢
  rcases hab with h | ⟨h1, h2⟩ <;> rcases hbc with h' | ⟨h1', h2'⟩
  · exact Or.inl (h.trans h')
  · exact Or.inl (by rw [← h1']; exact h)
  · exact Or.inl (by rw [h1]; exact h')
  · exact Or.inr ⟨h1.trans h1', h2.trans h2'⟩

theorem distLe_total (a b : ℤ × ℚ) : (distLe a b || distLe b a) = true := by
  simp only [distLe, Bool.or_eq_true, decide_eq_true_eq]
  rcases lt_trichotomy a.2 b.2 with h | h | h
  · exact Or.inl (Or.inl h)
  · rcases le_total a.1 b.1 with h' | h'
    · exact Or.inl (Or.inr ⟨h, h'⟩)
    · exact Or.inr (Or.inr ⟨h.symm, h'⟩)
  · exact Or.inr (Or.inl h)

theorem distLe_snd {a b : ℤ × ℚ} (h : distLe a b = true) : a.2 ≤ b.2 := by
  simp only [distLe, decide_eq_true_eq] at h
  rcases h with h | ⟨h, _⟩
  · exact le_of_lt h
  · exact le_of_eq h

/-- The `-1` padding rows never pass the route's row filter, so filtering
the k-NN output is filtering its first-`k`-of-sorted prefix. -/
theorem knnSearch_filter (vecs : List Vec) (q : Vec) (k : ℕ) (mapping : List Dict) :
    (knnSearch vecs q k).filter (fun p => decide (rowOk mapping p))
      = ((((List.range vecs.length).map
            (fun i => (Int.ofNat i, sqDist q (vecs.getD i [])))).mergeSort
              distLe).take k).filter (fun p => decide (rowOk mapping p)) := by
  unfold knnSearch
  rw [List.filter_append, filter_replicate_false]
  · simp
  · simp [rowOk]

/-- **C2.** For every loaded index and mapping and every non-empty
query, the route returns exactly the rows of the k-NN result whose index
is not `-1` and is in range, each mapped (in the k-NN result's order) to
the mapping record at that ordinal with the raw distance attached; the
surviving rows are in non-decreasing distance order and the result
length is at most `min(k, corpus size)`. -/
theorem search_route_spec (embed : String → Vec) (vecs : List Vec)
    (mapping : List Dict) (q : String) (k : ℕ)
    (hq : q ≠ "") (hlen : mapping.length = vecs.length) :
    searchK embed vecs mapping q k
      = ((knnSearch vecs (embed q) k).filter
          (fun p => decide (rowOk mapping p))).map (attachScores mapping)
    ∧ (searchK embed vecs mapping q k).length ≤ min k mapping.length
    ∧ List.Pairwise (fun a b => a.2 ≤ b.2)
        ((knnSearch vecs (embed q) k).filter (fun p => decide (rowOk mapping p))) := by
  have heq : searchK embed vecs mapping q k
      = ((knnSearch vecs (embed q) k).filter
          (fun p => decide (rowOk mapping p))).map (attachScores mapping) := by
    unfold searchK
    rw [if_neg hq]
    simpa using foldl_filter_append (rowOk mapping) (attachScores mapping)
      (knnSearch vecs (embed q) k) []
  refine ⟨heq, ?_, ?_⟩
  · rw [heq, List.length_map, knnSearch_filter]
    have h1 := List.length_filter_le (fun p => decide (rowOk mapping p))
      ((((List.range vecs.length).map
        (fun i => (Int.ofNat i, sqDist (embed q) (vecs.getD i [])))).mergeSort
          distLe).take k)
    have h2 : ((((List.range vecs.length).map
        (fun i => (Int.ofNat i, sqDist (embed q) (vecs.getD i [])))).mergeSort
          distLe).take k).length = min k vecs.length := by
      rw [List.length_take, List.length_mergeSort, List.length_map,
        List.length_range]
    rw [hlen]
    omega
  · rw [knnSearch_filter]
    have hsort : List.Pairwise (fun a b => distLe a b = true)
        (((List.range vecs.length).map
          (fun i => (Int.ofNat i, sqDist (embed q) (vecs.getD i [])))).mergeSort
            distLe) :=
      List.sorted_mergeSort distLe_trans distLe_total _
    have hsub := (List.filter_sublist (p := fun p => decide (rowOk mapping p))
        ((((List.range vecs.length).map
          (fun i => (Int.ofNat i, sqDist (embed q) (vecs.getD i [])))).mergeSort
            distLe).take k)).trans
      (List.take_sublist k _)
    exact (List.Pairwise.sublist hsub hsort).imp (fun h => distLe_snd h)

theorem search_route_spec_witness :
    (searchK (fun _ => [0]) [[0], [1]]
        [[("file_id", JVal.str "a")], [("file_id", JVal.str "b")]]
        "gravity" 5).length
      ≤ min 5 2 :=
  (search_route_spec (fun _ => [0]) [[0], [1]]
    [[("file_id", JVal.str "a")], [("file_id", JVal.str "b")]] "gravity" 5
    (by decide) rfl).2.1

/-! ### Remaining claim theorems -/

/-- **C5 counterexample.** A whitespace-only query is *not*
short-circuited by `if not query:` — with a one-record corpus the route
runs the full pipeline on `" "` and returns a non-empty result, where
the claim requires `[]` for every blank query. -/
theorem search_blank_query_counterexample :
    search (fun _ => [0]) [[0]] [[("file_id", JVal.str "a")]] " " ≠ [] := by
  simp [search, searchK, knnSearch, sqDist, rowOk, List.range_succ]

/-- **C5 (amended).** Only the exactly-empty query short-circuits: for
every embedder, index, mapping and `k`, searching `""` returns `[]`
(the result does not depend on the embedder or the index, which are
therefore never consulted). -/
theorem search_empty_query (embed : String → Vec) (vecs : List Vec)
    (mapping : List Dict) (k : ℕ) :
    searchK embed vecs mapping "" k = []
    ∧ search embed vecs mapping "" = [] :=
  ⟨rfl, rfl⟩

/-- **C6.** The build evaluated at the failing input: on an empty record
list the batch embedding is an empty (1-D) array, its shape has no
second axis, and `main` fails instead of producing a valid empty
index. -/
theorem buildMain_empty_input (embed : String → Vec) :
    buildMain embed [] = .error .emptyEmbeddingShape :=
  rfl

/-- **C7 counterexample.** An I/O failure during the mapping write, after
the index write already succeeded, leaves the *new* index paired with
the *old* mapping: the previously persisted pair is not left untouched
and a reader observes a mismatched pair, contrary to the claim. -/
theorem persist_mismatch_counterexample :
    persistArtifacts { indexFile := some ⟨1, [[0]]⟩, mappingFile := some [] }
        ⟨1, [[1]]⟩ [[("a", JVal.str "b")]] false true
      = ({ indexFile := some ⟨1, [[1]]⟩, mappingFile := some [] }, false)
    ∧ (⟨1, [[1]]⟩ : FlatIndex) ≠ ⟨1, [[0]]⟩ :=
  ⟨rfl, by decide⟩

/-- **C7 (amended).** The build persists by two direct overwrites —
index first, then mapping — with no temporaries and no handler: a
failure before the index write leaves the old pair intact, a failure
during the mapping write leaves the new index next to the old mapping,
and only a failure-free run replaces both. -/
theorem persistArtifacts_spec (st : ArtifactState) (idx : FlatIndex)
    (data : List Dict) :
    (∀ b, persistArtifacts st idx data true b = (st, false))
    ∧ persistArtifacts st idx data false true
        = ({ st with indexFile := some idx }, false)
    ∧ persistArtifacts st idx data false false
        = ({ indexFile := some idx, mappingFile := some data }, true) :=
  ⟨fun _ => rfl, rfl, rfl⟩

theorem foldl_searchHeapStep_extends (mapAddrs : List ℕ) (l : List (ℤ × ℚ)) :
    ∀ acc : Heap × List ℕ,
      ∃ ext, (l.foldl (searchHeapStep mapAddrs) acc).1 = acc.1 ++ ext := by
  induction l with
  | nil => intro acc; exact ⟨[], by simp⟩
  | cons p t ih =>
    intro acc
    rw [List.foldl_cons]
    by_cases hp : p.1 < (mapAddrs.length : ℤ) ∧ p.1 ≠ -1
    · obtain ⟨ext, hext⟩ := ih (searchHeapStep mapAddrs acc p)
      refine ⟨assocSet (assocSet (acc.1.getD (mapAddrs.getD p.1.toNat 0) [])
        "score" (.num p.2)) "similarity" (.num (simPercent p.2)) :: ext, ?_⟩
      rw [hext]
      simp [searchHeapStep, hp]
    · have hstep : searchHeapStep mapAddrs acc p = acc := by
        simp [searchHeapStep, hp]
      rw [hstep]
      exact ih acc

theorem searchHeap_extends (embed : String → Vec) (vecs : List Vec)
    (mapAddrs : List ℕ) (q : String) (k : ℕ) (heap : Heap) :
    ∃ ext, (searchHeap embed vecs heap mapAddrs q k).1 = heap ++ ext := by
  unfold searchHeap
  by_cases hq : q = ""
  · rw [if_pos hq]; exact ⟨[], by simp⟩
  · rw [if_neg hq]
    exact foldl_searchHeapStep_extends mapAddrs _ (heap, [])

theorem runSearches_extends (embed : String → Vec) (vecs : List Vec)
    (mapAddrs : List ℕ) (queries : List String) :
    ∀ heap : Heap,
      ∃ ext, runSearches embed vecs mapAddrs heap queries = heap ++ ext := by
  induction queries with
  | nil => intro heap; exact ⟨[], by simp [runSearches]⟩
  | cons q t ih =>
    intro heap
    have hstep : runSearches embed vecs mapAddrs heap (q :: t)
        = runSearches embed vecs mapAddrs
            ((searchHeap embed vecs heap mapAddrs q 5).1) t := rfl
    obtain ⟨e1, h1⟩ := searchHeap_extends embed vecs mapAddrs q 5 heap
    obtain ⟨e2, h2⟩ := ih (heap ++ e1)
    refine ⟨e1 ++ e2, ?_⟩
    rw [hstep, h1, h2, List.append_assoc]

/-- **C9.** The route never mutates the loaded mapping: each hit's
`score`/`similarity` fields are set on a fresh copy, so after any
sequence of `/search` requests every record the mapping refers to is
exactly the record loaded at startup. -/
theorem search_preserves_mapping (embed : String → Vec) (vecs : List Vec)
    (mapAddrs : List ℕ) (heap : Heap) (queries : List String)
    (h : ∀ a ∈ mapAddrs, a < heap.length) :
    ∀ a ∈ mapAddrs,
      (runSearches embed vecs mapAddrs heap queries).getD a []
        = heap.getD a [] := by
  intro a ha
  obtain ⟨ext, hext⟩ := runSearches_extends embed vecs mapAddrs queries heap
  rw [hext, List.getD_append]
  exact h a ha

theorem search_preserves_mapping_witness :
    (runSearches (fun _ => [0]) [[0]] [0]
        [[("file_id", JVal.str "a")]] ["gravity"]).getD 0 []
      = ([[("file_id", JVal.str "a")]] : Heap).getD 0 [] :=
  search_preserves_mapping (fun _ => [0]) [[0]] [0]
    [[("file_id", JVal.str "a")]] ["gravity"] (by decide) 0 (by decide)

end GeoRag
